import Mathlib

/-!
Shallow embedding of the scoring / trust-update core of the roleplay
validator (files `prompting/validators/forward.py` and
`neurons/validators/validator.py`), together with proofs of the spec's
testable properties.

Tensors are modelled as `List ℚ`; peer ids as `Nat`; Python strings as
`List Char`; fallible construction and round steps as `Except`.
-/

namespace Roleplay

/-! ## Vectors: scatter and the moving-average trust update -/

/-- Sequential element writes, the semantics of `Tensor.scatter(0, idx, src)`
applied pairwise: each pair `(u, x)` sets position `u` to `x`.  A write at an
out-of-range position is dropped (`List.set` semantics); the queried uids are
always in range in the validator. -/
def setAll (base : List ℚ) (ps : List (Nat × ℚ)) : List ℚ :=
  ps.foldl (fun acc p => acc.set p.1 p.2) base

/-- `moving_averaged_scores.scatter(0, uids, rewards)` from `run_step`
(forward.py lines 223-225): the base vector with `rewards[j]` written at
position `uids[j]` for each `j`. -/
def scatter (base : List ℚ) (uids : List Nat) (src : List ℚ) : List ℚ :=
  setAll base (uids.zip src)

/-- The trust-ledger update of `run_step` (forward.py lines 221-232):
`alpha * scattered_rewards + (1 - alpha) * moving_averaged_scores`, where
`scattered_rewards` is the *previous* trust vector with the round's rewards
scattered into the queried positions. -/
def trustUpdate (prev : List ℚ) (uids : List Nat) (rewards : List ℚ) (alpha : ℚ) : List ℚ :=
  List.zipWith (fun s p => alpha * s + (1 - alpha) * p) (scatter prev uids rewards) prev

/-- The spec's claimed update rule (spec §4.6), stated for comparison with
`trustUpdate`: the rewards are scattered into a **zero** vector ("zero at
every other position") before the moving average is taken. -/
def trustUpdateSpecClaim (prev : List ℚ) (uids : List Nat) (rewards : List ℚ) (alpha : ℚ) :
    List ℚ :=
  List.zipWith (fun s p => alpha * s + (1 - alpha) * p)
    (scatter (List.replicate prev.length 0) uids rewards) prev

/-- N consecutive round steps of the trust ledger, each round given by its
queried uids and reward vector. -/
def trustUpdateRounds (prev : List ℚ) (rounds : List (List Nat × List ℚ)) (alpha : ℚ) :
    List ℚ :=
  rounds.foldl (fun t rd => trustUpdate t rd.1 rd.2 alpha) prev

/-! ## Reward aggregation (`compute_rewards`, forward.py lines 102-146) -/

/-- The weighted-scoring loop of `compute_rewards`: starting from
`torch.zeros(len(responses))`, accumulate `weight_i * reward_i_normalized`
for each configured (weight, scoring function) pair.  The scoring functions
are external models; their output vectors are taken as inputs. -/
def weightedSum (weights : List ℚ) (scores : List (List ℚ)) (n : Nat) : List ℚ :=
  (weights.zip scores).foldl
    (fun acc ws => List.zipWith (· + ·) acc (ws.2.map (fun x => ws.1 * x)))
    (List.replicate n 0)

/-- The masking / penalty loops of `compute_rewards`: elementwise
multiplication of the running reward vector by each factor vector in order. -/
def applyFactors (factors : List (List ℚ)) (acc : List ℚ) : List ℚ :=
  factors.foldl (fun a m => List.zipWith (· * ·) a m) acc

/-- `compute_rewards` (forward.py lines 102-146): weighted sum of scoring
outputs, then elementwise multiplication by every masking output, then by
every applied penalty. `n` is `len(responses)`. -/
def compute_rewards (weights : List ℚ) (scores masks penalties : List (List ℚ)) (n : Nat) :
    List ℚ :=
  applyFactors penalties (applyFactors masks (weightedSum weights scores n))

/-! ## Peer sampling (`get_random_uids`, forward.py lines 47-78) -/

/-- The candidate-uid accumulation loop of `get_random_uids`: every uid below
the registry size that passes `check_uid_availability` (an external check,
abstracted as `avail`) and is not excluded. `exclude = none` models the
Python `exclude is None` case. -/
def candidateUids (n : Nat) (avail : Nat → Bool) (exclude : Option (List Nat)) : List Nat :=
  (List.range n).filter fun uid =>
    avail uid && (match exclude with
      | none => true
      | some ex => decide (uid ∉ ex))

/-- `get_random_uids` (forward.py lines 47-78).  `random.sample` is external;
it is abstracted as `sample`, to be constrained by its documented contract
(a list of `k` distinct elements of the population). -/
def get_random_uids (sample : List Nat → Nat → List Nat) (n : Nat) (avail : Nat → Bool)
    (k : Nat) (exclude : Option (List Nat)) : List Nat :=
  let candidate_uids := candidateUids n avail exclude
  let k := if candidate_uids.length < k then candidate_uids.length else k
  if candidate_uids = [] then [] else sample candidate_uids k

/-! ## Response normalization (`restrict_format_followup_responses`,
forward.py lines 81-99).  Python strings are modelled as `List Char`. -/

/-- Remove leading copies of `c` (the one-sided half of Python
`str.strip(c)`). -/
def pyLStrip (c : Char) : List Char → List Char
  | [] => []
  | x :: xs => if x = c then pyLStrip c xs else x :: xs

/-- Python `s.strip(c)`: remove leading and trailing copies of `c`. -/
def pyStrip (c : Char) (s : List Char) : List Char :=
  pyLStrip c (pyLStrip c s.reverse).reverse

/-- Python `s.split(c)` for a single-character separator: the list of
(possibly empty) chunks between occurrences of `c`; never empty. -/
def pySplit (c : Char) : List Char → List (List Char)
  | [] => [[]]
  | x :: xs =>
    match pySplit c xs with
    | [] => [[]]
    | p :: ps => if x = c then [] :: p :: ps else (x :: p) :: ps

/-- Python `c.join(parts)` for a single-character separator: the parts
concatenated with `c` between consecutive parts. -/
def pyJoin (c : Char) : List (List Char) → List Char
  | [] => []
  | [w] => w
  | w :: ws => w ++ c :: pyJoin c ws

/-- Python `l[0]` on the (never-empty) result of a split. -/
def pyHead (l : List (List Char)) : List Char :=
  l.headD []

/-- Python `l[-1]` on the (never-empty) result of a split. -/
def pyLast (l : List (List Char)) : List Char :=
  l.getLastD []

/-- Python `l[-k:]`: the last `min k (length l)` elements. -/
def lastN (k : Nat) (l : List (List Char)) : List (List Char) :=
  l.drop (l.length - k)

/-- The `"followup"` marker searched for in the task name. -/
def followupMarker : List Char := "followup".toList

/-- The per-response body of `restrict_format_followup_responses`
(forward.py lines 85-99): strip periods; for follow-up tasks keep the
sentence before the first question mark (or the last sentence), cap to the
last 40 words, and re-append `?` when one was present. -/
def restrictCompletion (taskName : List Char) (comp : List Char) : List Char :=
  let completion := pyStrip '.' comp
  if followupMarker <:+: taskName ∧ completion.length > 0 then
    if '?' ∈ completion then
      let c := pyLast (pySplit '.' (pyHead (pySplit '?' completion)))
      pyJoin ' ' (lastN 40 (pySplit ' ' c)) ++ ['?']
    else
      let c := pyLast (pySplit '.' (pyLast (pySplit '.' completion)))
      pyJoin ' ' (lastN 40 (pySplit ' ' c))
  else comp

/-- `restrict_format_followup_responses` over the batch: each response's
completion is rewritten in place. -/
def restrict_format_followup_responses (taskName : List Char)
    (completions : List (List Char)) : List (List Char) :=
  completions.map (restrictCompletion taskName)

/-! ## Best-completion selection and the round step (`run_step`,
forward.py lines 149-263) -/

/-- `torch.argmax(dim=0)` on a 1-d tensor: the index of the first maximal
element; raising on an empty tensor is modelled by `none`. -/
def pyArgmax : List ℚ → Option Nat
  | [] => none
  | x :: xs =>
    match pyArgmax xs with
    | none => some 0
    | some j => if xs.getD j 0 > x then some (j + 1) else some 0

/-- Python `str.strip()`: remove leading and trailing whitespace. -/
def pyStripWs (s : List Char) : List Char :=
  ((s.dropWhile Char.isWhitespace).reverse.dropWhile Char.isWhitespace).reverse

/-- `completions[rewards.argmax(dim=0)].strip()` (forward.py line 213),
with the two failure modes (argmax of an empty tensor, index out of range)
made explicit. -/
def select_best (completions : List (List Char)) (rewards : List ℚ) :
    Except String (List Char) :=
  match pyArgmax rewards with
  | none => Except.error "argmax of an empty tensor"
  | some i =>
    match completions[i]? with
    | none => Except.error "list index out of range"
    | some c => Except.ok (pyStripWs c)

/-- The scoring tail of `run_step` (forward.py lines 194-232): normalize the
completions, aggregate rewards over the batch, select the best completion
(raising on an empty batch), then fold the rewards into the trust ledger.
The network query itself is external; the returned completions and the
scoring-model outputs are taken as inputs. -/
def run_step (prevTrust : List ℚ) (alpha : ℚ) (uids : List Nat)
    (completions : List (List Char)) (taskName : List Char) (weights : List ℚ)
    (scores masks penalties : List (List ℚ)) : Except String (List ℚ × List Char) :=
  let comps := restrict_format_followup_responses taskName completions
  let rewards := compute_rewards weights scores masks penalties comps.length
  match select_best comps rewards with
  | Except.error e => Except.error e
  | Except.ok best => Except.ok (trustUpdate prevTrust uids rewards alpha, best)

/-! ## Validator construction (`init_reward_models`, validator.py
lines 88-178) -/

/-- The reward / masking model identities wired up by `init_reward_models`.
The models themselves are external; only their identity matters here. -/
inductive RewardModelKind
  | mistral
  | mockMistral
  | blacklist
  | mockBlacklist
  | nsfw
  | mockNSFW
  deriving DecidableEq, Repr

/-- The penalty model identities wired up by `init_reward_models`. -/
inductive PenaltyModelKind
  | taskValidation
  | contentMatch
  | keywordMatch
  deriving DecidableEq, Repr

/-- The configuration fields read by `init_reward_models`. -/
structure NeuronConfig where
  mock_reward_models : Bool
  mistral_weight : ℚ
  blacklist_off : Bool
  relevance_off : Bool
  diversity_off : Bool
  nsfw_off : Bool
  deriving DecidableEq, Repr

/-- The scoring pipeline assembled by `init_reward_models`: weighted scoring
functions and their weights, masking functions, and penalty functions with
their `max_penalty` ceilings. -/
structure RewardPipeline where
  reward_weights : List ℚ
  reward_functions : List RewardModelKind
  masking_functions : List RewardModelKind
  penalty_functions : List (PenaltyModelKind × ℚ)
  deriving DecidableEq, Repr

/-- `init_reward_models` (validator.py lines 88-178).  With mock reward
models the weighted list is empty and no sum check runs; otherwise the
weights are `[mistral_weight]` and construction raises unless they sum
to 1 and match the function count. -/
def init_reward_models (cfg : NeuronConfig) : Except String RewardPipeline :=
  if cfg.mock_reward_models then
    Except.ok
      { reward_weights := []
        reward_functions := []
        masking_functions := [.mockBlacklist, .mockNSFW]
        penalty_functions :=
          [(.taskValidation, 3/4), (.contentMatch, 1/5), (.keywordMatch, 1)] }
  else
    let reward_weights := [cfg.mistral_weight]
    if reward_weights.sum ≠ 1 then
      Except.error "Reward function weights do not sum to 1"
    else
      let reward_functions :=
        [if cfg.mistral_weight > 0 then RewardModelKind.mistral else .mockMistral]
      if reward_functions.length ≠ reward_weights.length then
        Except.error "Length of reward function weights and reward functions do not match"
      else
        Except.ok
          { reward_weights := reward_weights
            reward_functions := reward_functions
            masking_functions :=
              [if cfg.blacklist_off then RewardModelKind.mockBlacklist else .blacklist,
               if cfg.nsfw_off then RewardModelKind.mockNSFW else .nsfw]
            penalty_functions :=
              [(.taskValidation, 3/5), (.contentMatch, 1/5), (.keywordMatch, 1)] }

/-- The pipeline produced by the mock branch of `init_reward_models`. -/
def mockPipeline : RewardPipeline :=
  { reward_weights := []
    reward_functions := []
    masking_functions := [.mockBlacklist, .mockNSFW]
    penalty_functions :=
      [(.taskValidation, 3/4), (.contentMatch, 1/5), (.keywordMatch, 1)] }

/-- A concrete configuration with mock reward models enabled. -/
def cfgMock : NeuronConfig :=
  { mock_reward_models := true
    mistral_weight := 0
    blacklist_off := false
    relevance_off := false
    diversity_off := false
    nsfw_off := false }

/-- A concrete real (non-mock) configuration with the default weight 1. -/
def cfgReal : NeuronConfig :=
  { mock_reward_models := false
    mistral_weight := 1
    blacklist_off := false
    relevance_off := false
    diversity_off := false
    nsfw_off := false }

/-! ## Epoch scheduling and the run loop (validator.py lines 286-342) -/

/-- Epoch-length initialization (validator.py lines 286-289): the override
when it is set and truthy, otherwise 100. -/
def epoch_length_default (override : Option Nat) : Nat :=
  match override with
  | some o => if o ≠ 0 then o else 100
  | none => 100

/-- `should_update` (validator.py lines 294-298): the epoch boundary is due
when the current block exceeds the last-recorded block by more than the
epoch length. -/
def should_update (curBlock prevBlock epochLength : Int) : Bool :=
  decide (curBlock - prevBlock > epochLength)

/-- Result of the epoch-boundary section of one loop iteration. -/
structure EpochIterResult where
  prevBlock : Int
  boundaryEntered : Bool
  commitAttempted : Bool
  deriving DecidableEq, Repr

/-- The epoch-boundary section of one `run` iteration (validator.py lines
324-332): when `should_update` holds, resync, optionally commit weights
(`weightsEligible` models `should_set_weights`; `commitSucceeded` models the
outcome of `set_weights`, which per spec §6 reports failure without
raising), and record the current block as the last-recorded block
unconditionally inside the boundary. -/
def epoch_iteration (prevBlock curBlock epochLength : Int)
    (weightsEligible commitSucceeded : Bool) : EpochIterResult :=
  if should_update curBlock prevBlock epochLength then
    { prevBlock := curBlock
      boundaryEntered := true
      commitAttempted := weightsEligible }
  else
    { prevBlock := prevBlock, boundaryEntered := false, commitAttempted := false }

/-- The per-iteration environment seen by the run loop: the registry
snapshot's hotkeys, the chain height, and the weight-setting eligibility. -/
structure RoundEnv where
  hotkeys : List String
  curBlock : Int
  weightsEligible : Bool
  deriving DecidableEq, Repr

/-- The mutable state of the run loop. -/
structure LoopState where
  prevBlock : Int
  step : Nat
  deriving DecidableEq, Repr

/-- Outcome of running the loop over a finite prefix of iterations. -/
structure RunResult where
  state : LoopState
  fatalError : Option String
  roundsExecuted : Nat
  deriving DecidableEq, Repr

/-- The registration failure raised at validator.py lines 306-309. -/
def registration_error (hotkey : String) : String :=
  "Validator is not registered - hotkey " ++ hotkey ++ " not in metagraph"

/-- The `run` loop (validator.py lines 300-342) over a finite list of
per-iteration environments.  Each iteration first checks that the local
hotkey is registered — raising otherwise, which the top-level handler
catches, logs, and does not retry — then runs the forwards and the
epoch-boundary section, and increments the step counter. -/
def run_loop (ownHotkey : String) (epochLength : Int) :
    List RoundEnv → LoopState → RunResult
  | [], st => { state := st, fatalError := none, roundsExecuted := 0 }
  | env :: rest, st =>
    if ownHotkey ∈ env.hotkeys then
      let it := epoch_iteration st.prevBlock env.curBlock epochLength env.weightsEligible true
      let r := run_loop ownHotkey epochLength rest
        { prevBlock := it.prevBlock, step := st.step + 1 }
      { state := r.state, fatalError := r.fatalError, roundsExecuted := r.roundsExecuted + 1 }
    else
      { state := st
        fatalError := some (registration_error ownHotkey)
        roundsExecuted := 0 }

/-! ## Helper lemmas: scatter and the trust update -/

theorem setAll_length (ps : List (Nat × ℚ)) (base : List ℚ) :
    (setAll base ps).length = base.length := by
  induction ps generalizing base with
  | nil => rfl
  | cons p ps ih =>
    simp only [setAll, List.foldl_cons] at *
    rw [ih]
    exact List.length_set base p.1 p.2

theorem setAll_getElem?_not_mem (ps : List (Nat × ℚ)) (base : List ℚ) (j : Nat)
    (h : ∀ p ∈ ps, p.1 ≠ j) :
    (setAll base ps)[j]? = base[j]? := by
  induction ps generalizing base with
  | nil => rfl
  | cons p ps ih =>
    simp only [setAll, List.foldl_cons] at *
    rw [ih _ fun q hq => h q (List.mem_cons_of_mem p hq)]
    exact List.getElem?_set_ne (h p (List.mem_cons_self p ps))

theorem setAll_cons (base : List ℚ) (p : Nat × ℚ) (ps : List (Nat × ℚ)) :
    setAll base (p :: ps) = setAll (base.set p.1 p.2) ps := rfl

theorem setAll_getElem?_mem (ps : List (Nat × ℚ)) (base : List ℚ) (u i : Nat) (x : ℚ)
    (hnd : (ps.map Prod.fst).Nodup) (hpi : ps[i]? = some (u, x)) (hb : u < base.length) :
    (setAll base ps)[u]? = some x := by
  induction ps generalizing base i with
  | nil => simp at hpi
  | cons p ps ih =>
    simp only [List.map_cons, List.nodup_cons] at hnd
    rw [setAll_cons]
    match i with
    | 0 =>
      simp only [List.getElem?_cons_zero, Option.some_inj] at hpi
      subst hpi
      rw [setAll_getElem?_not_mem ps (base.set u x) u
        (fun q hq hqe => hnd.1 (show u ∈ List.map Prod.fst ps from by
          have h2 := List.mem_map_of_mem Prod.fst hq
          rwa [hqe] at h2))]
      exact List.getElem?_set_eq_of_lt x hb
    | i + 1 =>
      simp only [List.getElem?_cons_succ] at hpi
      exact ih (base.set p.1 p.2) i hnd.2 hpi (by rw [List.length_set]; exact hb)

theorem scatter_length (base : List ℚ) (uids : List Nat) (src : List ℚ) :
    (scatter base uids src).length = base.length :=
  setAll_length _ _

theorem scatter_getElem?_not_mem (base : List ℚ) (uids : List Nat) (src : List ℚ)
    (j : Nat) (hj : j ∉ uids) :
    (scatter base uids src)[j]? = base[j]? := by
  refine setAll_getElem?_not_mem _ _ _ fun p hp hpe => hj ?_
  exact hpe ▸ (List.of_mem_zip hp).1

theorem scatter_getElem?_mem (base : List ℚ) (uids : List Nat) (src : List ℚ)
    (i : Nat) (hnd : uids.Nodup) (hlen : src.length = uids.length)
    (hi : i < uids.length) (hb : uids.getD i 0 < base.length) :
    (scatter base uids src)[uids.getD i 0]? = some (src.getD i 0) := by
  have hmap : (uids.zip src).map Prod.fst = uids :=
    List.map_fst_zip uids src (le_of_eq hlen.symm)
  have hiz : i < (uids.zip src).length := by
    rw [List.length_zip]; omega
  have hpi : (uids.zip src)[i]? = some (uids.getD i 0, src.getD i 0) := by
    rw [List.getElem?_eq_getElem hiz, List.getElem_zip,
      List.getD_eq_getElem uids 0 hi, List.getD_eq_getElem src 0 (by omega)]
  exact setAll_getElem?_mem (uids.zip src) base (uids.getD i 0) i (src.getD i 0)
    (by rw [hmap]; exact hnd) hpi hb

theorem zipWith_getElem?_of_lt (f : ℚ → ℚ → ℚ) (a b : List ℚ) (j : Nat)
    (ha : j < a.length) (hb : j < b.length) :
    (List.zipWith f a b)[j]? = some (f (a.getD j 0) (b.getD j 0)) := by
  have hz : j < (List.zipWith f a b).length := by
    rw [List.length_zipWith]; omega
  rw [List.getElem?_eq_getElem hz, List.getElem_zipWith,
    List.getD_eq_getElem a 0 ha, List.getD_eq_getElem b 0 hb]

theorem trustUpdate_length (prev : List ℚ) (uids : List Nat) (r : List ℚ) (α : ℚ) :
    (trustUpdate prev uids r α).length = prev.length := by
  rw [trustUpdate, List.length_zipWith, scatter_length, min_self]

theorem trustUpdate_getElem?_not_mem (prev : List ℚ) (uids : List Nat) (r : List ℚ)
    (α : ℚ) (j : Nat) (hj : j < prev.length) (hmem : j ∉ uids) :
    (trustUpdate prev uids r α)[j]? = prev[j]? := by
  have hs : j < (scatter prev uids r).length := by rw [scatter_length]; exact hj
  rw [trustUpdate, zipWith_getElem?_of_lt _ _ _ _ hs hj]
  have hget : (scatter prev uids r).getD j 0 = prev.getD j 0 := by
    rw [List.getD_eq_getElem _ 0 hs, List.getD_eq_getElem _ 0 hj,
      ← Option.some_inj, ← List.getElem?_eq_getElem hs, ← List.getElem?_eq_getElem hj]
    exact scatter_getElem?_not_mem prev uids r j hmem
  rw [hget, List.getElem?_eq_getElem hj, ← List.getD_eq_getElem prev 0 hj]
  congr 1
  ring

theorem trustUpdate_getElem?_mem (prev : List ℚ) (uids : List Nat) (r : List ℚ)
    (α : ℚ) (i : Nat) (hnd : uids.Nodup) (hlen : r.length = uids.length)
    (hi : i < uids.length) (hb : uids.getD i 0 < prev.length) :
    (trustUpdate prev uids r α)[uids.getD i 0]? =
      some (α * r.getD i 0 + (1 - α) * prev.getD (uids.getD i 0) 0) := by
  have hs : uids.getD i 0 < (scatter prev uids r).length := by
    rw [scatter_length]; exact hb
  rw [trustUpdate, zipWith_getElem?_of_lt _ _ _ _ hs hb]
  have hget : (scatter prev uids r).getD (uids.getD i 0) 0 = r.getD i 0 := by
    rw [List.getD_eq_getElem _ 0 hs, ← Option.some_inj, ← List.getElem?_eq_getElem hs]
    exact scatter_getElem?_mem prev uids r i hnd hlen hi hb
  rw [hget]

theorem trustUpdateRounds_getElem?_not_mem (prev : List ℚ)
    (rounds : List (List Nat × List ℚ)) (α : ℚ) (j : Nat) (hj : j < prev.length)
    (hmem : ∀ rd ∈ rounds, j ∉ rd.1) :
    (trustUpdateRounds prev rounds α)[j]? = prev[j]? := by
  induction rounds generalizing prev with
  | nil => rfl
  | cons rd rounds ih =>
    simp only [trustUpdateRounds, List.foldl_cons] at *
    rw [ih (trustUpdate prev rd.1 rd.2 α)
      (by rw [trustUpdate_length]; exact hj)
      (fun q hq => hmem q (List.mem_cons_of_mem rd hq))]
    exact trustUpdate_getElem?_not_mem prev rd.1 rd.2 α j hj
      (hmem rd (List.mem_cons_self rd rounds))

/-! ## Helper lemmas: reward aggregation -/

theorem applyFactors_nil_acc (fs : List (List ℚ)) : applyFactors fs [] = [] := by
  induction fs with
  | nil => rfl
  | cons m fs ih =>
    simp only [applyFactors, List.foldl_cons, List.zipWith_nil_left] at *
    exact ih

theorem applyFactors_length (fs : List (List ℚ)) (acc : List ℚ)
    (h : ∀ m ∈ fs, m.length = acc.length) :
    (applyFactors fs acc).length = acc.length := by
  induction fs generalizing acc with
  | nil => rfl
  | cons m fs ih =>
    simp only [applyFactors, List.foldl_cons] at *
    have hacc : (List.zipWith (· * ·) acc m).length = acc.length := by
      rw [List.length_zipWith, h m (List.mem_cons_self m fs), min_self]
    rw [ih _ (fun q hq => by rw [hacc]; exact h q (List.mem_cons_of_mem m hq))]
    exact hacc

theorem applyFactors_getElem? (fs : List (List ℚ)) (acc : List ℚ) (j : Nat)
    (hj : j < acc.length) (h : ∀ m ∈ fs, m.length = acc.length) :
    (applyFactors fs acc)[j]? =
      some (acc.getD j 0 * (fs.map (fun m => m.getD j 0)).prod) := by
  induction fs generalizing acc with
  | nil =>
    simp only [applyFactors, List.foldl_nil, List.map_nil, List.prod_nil, mul_one]
    rw [List.getElem?_eq_getElem hj, List.getD_eq_getElem acc 0 hj]
  | cons m fs ih =>
    have hm : m.length = acc.length := h m (List.mem_cons_self m fs)
    have hacc : (List.zipWith (· * ·) acc m).length = acc.length := by
      rw [List.length_zipWith, hm, min_self]
    have hstep : (List.zipWith (· * ·) acc m).getD j 0 = acc.getD j 0 * m.getD j 0 := by
      rw [List.getD_eq_getElem _ 0 (by rw [hacc]; exact hj), ← Option.some_inj,
        ← List.getElem?_eq_getElem (by rw [hacc]; exact hj)]
      exact zipWith_getElem?_of_lt _ acc m j hj (by rw [hm]; exact hj)
    simp only [applyFactors, List.foldl_cons] at *
    rw [ih (List.zipWith (· * ·) acc m) (by rw [hacc]; exact hj)
      (fun q hq => by rw [hacc]; exact h q (List.mem_cons_of_mem m hq))]
    rw [hstep, List.map_cons, List.prod_cons]
    congr 1
    ring

theorem weightedAccum_nil_acc (l : List (ℚ × List ℚ)) :
    l.foldl (fun acc ws => List.zipWith (· + ·) acc (ws.2.map (fun x => ws.1 * x))) [] = [] := by
  induction l with
  | nil => rfl
  | cons p l ih =>
    simp only [List.foldl_cons, List.zipWith_nil_left] at *
    exact ih

theorem weightedAccum_length (l : List (ℚ × List ℚ)) (acc : List ℚ)
    (h : ∀ p ∈ l, p.2.length = acc.length) :
    (l.foldl (fun acc ws => List.zipWith (· + ·) acc (ws.2.map (fun x => ws.1 * x)))
      acc).length = acc.length := by
  induction l generalizing acc with
  | nil => rfl
  | cons p l ih =>
    simp only [List.foldl_cons] at *
    have hacc : (List.zipWith (· + ·) acc (p.2.map (fun x => p.1 * x))).length = acc.length := by
      rw [List.length_zipWith, List.length_map, h p (List.mem_cons_self p l), min_self]
    rw [ih _ (fun q hq => by rw [hacc]; exact h q (List.mem_cons_of_mem p hq))]
    exact hacc

theorem weightedAccum_getElem? (l : List (ℚ × List ℚ)) (acc : List ℚ) (j : Nat)
    (hj : j < acc.length) (h : ∀ p ∈ l, p.2.length = acc.length) :
    (l.foldl (fun acc ws => List.zipWith (· + ·) acc (ws.2.map (fun x => ws.1 * x))) acc)[j]? =
      some (acc.getD j 0 + (l.map (fun p => p.1 * p.2.getD j 0)).sum) := by
  induction l generalizing acc with
  | nil =>
    simp only [List.foldl_nil, List.map_nil, List.sum_nil, add_zero]
    rw [List.getElem?_eq_getElem hj, List.getD_eq_getElem acc 0 hj]
  | cons p l ih =>
    have hp : p.2.length = acc.length := h p (List.mem_cons_self p l)
    have hmap : (p.2.map (fun x => p.1 * x)).length = acc.length := by
      rw [List.length_map]; exact hp
    have hacc : (List.zipWith (· + ·) acc (p.2.map (fun x => p.1 * x))).length = acc.length := by
      rw [List.length_zipWith, hmap, min_self]
    have hmget : (p.2.map (fun x => p.1 * x)).getD j 0 = p.1 * p.2.getD j 0 := by
      rw [List.getD_eq_getElem _ 0 (by rw [hmap]; exact hj), List.getElem_map,
        List.getD_eq_getElem p.2 0 (by rw [hp]; exact hj)]
    have hstep : (List.zipWith (· + ·) acc (p.2.map (fun x => p.1 * x))).getD j 0 =
        acc.getD j 0 + p.1 * p.2.getD j 0 := by
      rw [List.getD_eq_getElem _ 0 (by rw [hacc]; exact hj), ← Option.some_inj,
        ← List.getElem?_eq_getElem (by rw [hacc]; exact hj),
        zipWith_getElem?_of_lt _ acc _ j hj (by rw [hmap]; exact hj), hmget]
    simp only [List.foldl_cons] at *
    rw [ih (List.zipWith (· + ·) acc (p.2.map (fun x => p.1 * x))) (by rw [hacc]; exact hj)
      (fun q hq => by rw [hacc]; exact h q (List.mem_cons_of_mem p hq))]
    rw [hstep, List.map_cons, List.sum_cons]
    congr 1
    ring

theorem weightedSum_zero_len (w : List ℚ) (s : List (List ℚ)) : weightedSum w s 0 = [] :=
  weightedAccum_nil_acc (w.zip s)

theorem weightedSum_length (w : List ℚ) (s : List (List ℚ)) (n : Nat)
    (h : ∀ p ∈ w.zip s, p.2.length = n) : (weightedSum w s n).length = n := by
  have := weightedAccum_length (w.zip s) (List.replicate n 0)
    (fun p hp => by rw [List.length_replicate]; exact h p hp)
  rwa [List.length_replicate] at this

theorem weightedSum_getElem? (w : List ℚ) (s : List (List ℚ)) (n j : Nat) (hj : j < n)
    (h : ∀ p ∈ w.zip s, p.2.length = n) :
    (weightedSum w s n)[j]? = some (((w.zip s).map (fun p => p.1 * p.2.getD j 0)).sum) := by
  have := weightedAccum_getElem? (w.zip s) (List.replicate n 0) j
    (by rw [List.length_replicate]; exact hj)
    (fun p hp => by rw [List.length_replicate]; exact h p hp)
  rwa [List.getD_eq_getElem _ 0 (by rw [List.length_replicate]; exact hj),
    List.getElem_replicate, zero_add] at this

theorem compute_rewards_length (w : List ℚ) (s masks pens : List (List ℚ)) (n : Nat)
    (hs : ∀ p ∈ w.zip s, p.2.length = n) (hm : ∀ m ∈ masks, m.length = n)
    (hp : ∀ m ∈ pens, m.length = n) :
    (compute_rewards w s masks pens n).length = n := by
  have h1 : (weightedSum w s n).length = n := weightedSum_length w s n hs
  have h2 : (applyFactors masks (weightedSum w s n)).length = n := by
    rw [applyFactors_length masks _ (fun q hq => by rw [h1]; exact hm q hq)]
    exact h1
  rw [compute_rewards, applyFactors_length pens _ (fun q hq => by rw [h2]; exact hp q hq)]
  exact h2

theorem compute_rewards_getElem? (w : List ℚ) (s masks pens : List (List ℚ)) (n j : Nat)
    (hj : j < n)
    (hs : ∀ p ∈ w.zip s, p.2.length = n) (hm : ∀ m ∈ masks, m.length = n)
    (hp : ∀ m ∈ pens, m.length = n) :
    (compute_rewards w s masks pens n)[j]? =
      some (((w.zip s).map (fun p => p.1 * p.2.getD j 0)).sum
        * (masks.map (fun m => m.getD j 0)).prod
        * (pens.map (fun m => m.getD j 0)).prod) := by
  have hws : (weightedSum w s n).length = n := weightedSum_length w s n hs
  have hws_get : (weightedSum w s n).getD j 0 =
      ((w.zip s).map (fun p => p.1 * p.2.getD j 0)).sum := by
    rw [List.getD_eq_getElem _ 0 (by rw [hws]; exact hj), ← Option.some_inj,
      ← List.getElem?_eq_getElem (by rw [hws]; exact hj)]
    exact weightedSum_getElem? w s n j hj hs
  have hmm : ∀ m ∈ masks, m.length = (weightedSum w s n).length := by
    rw [hws]; exact hm
  have hmasked : (applyFactors masks (weightedSum w s n)).length = n := by
    rw [applyFactors_length masks _ hmm, hws]
  have hmasked_get : (applyFactors masks (weightedSum w s n)).getD j 0 =
      ((w.zip s).map (fun p => p.1 * p.2.getD j 0)).sum
        * (masks.map (fun m => m.getD j 0)).prod := by
    rw [List.getD_eq_getElem _ 0 (by rw [hmasked]; exact hj), ← Option.some_inj,
      ← List.getElem?_eq_getElem (by rw [hmasked]; exact hj),
      applyFactors_getElem? masks _ j (by rw [hws]; exact hj) hmm, hws_get]
  rw [compute_rewards,
    applyFactors_getElem? pens _ j (by rw [hmasked]; exact hj)
      (fun q hq => by rw [hmasked]; exact hp q hq),
    hmasked_get]

/-! ## Claim C1: the trust-ledger update rule -/

/-- C1 (counterexample): the trust update of `run_step` is **not**
`alpha * (rewards scattered into zeros) + (1 - alpha) * previous`: with
previous trust `[0, 1]`, queried uids `[0]`, reward `[0]` and `alpha = 1/2`,
the code leaves the unqueried peer's trust at `1` while the claimed rule
would decay it to `1/2`. -/
theorem trustUpdate_differs_from_sparse_scatter_claim :
    trustUpdate [0, 1] [0] [0] (1/2) = [0, 1] ∧
    trustUpdateSpecClaim [0, 1] [0] [0] (1/2) = [0, 1/2] ∧
    trustUpdate [0, 1] [0] [0] (1/2) ≠ trustUpdateSpecClaim [0, 1] [0] [0] (1/2) := by
  refine ⟨?_, ?_, ?_⟩ <;>
    norm_num [trustUpdate, trustUpdateSpecClaim, scatter, setAll, List.replicate]

/-- C1 (amended): the new trust vector is `alpha` times the rewards
scattered into the **previous trust vector** plus `(1 - alpha)` times the
previous trust vector: a queried position `uids[i]` becomes
`alpha * r[i] + (1 - alpha) * prev[uids[i]]`, an unqueried position keeps
its previous value exactly, and consequently a peer never queried across N
consecutive rounds retains its prior trust unchanged (not multiplied by
`(1 - alpha)^N`). -/
theorem trustUpdate_pointwise (prev : List ℚ) (uids : List Nat) (r : List ℚ) (alpha : ℚ)
    (hnd : uids.Nodup) (hlen : r.length = uids.length)
    (hbound : ∀ u ∈ uids, u < prev.length) :
    (∀ i, i < uids.length →
      (trustUpdate prev uids r alpha)[uids.getD i 0]? =
        some (alpha * r.getD i 0 + (1 - alpha) * prev.getD (uids.getD i 0) 0)) ∧
    (∀ j, j < prev.length → j ∉ uids →
      (trustUpdate prev uids r alpha)[j]? = prev[j]?) ∧
    (∀ rounds : List (List Nat × List ℚ), ∀ j, j < prev.length →
      (∀ rd ∈ rounds, j ∉ rd.1) →
      (trustUpdateRounds prev rounds alpha)[j]? = prev[j]?) := by
  refine ⟨fun i hi => ?_, fun j hj hmem => ?_, fun rounds j hj hmem => ?_⟩
  · have hmemi : uids.getD i 0 ∈ uids := by
      rw [List.getD_eq_getElem uids 0 hi]
      exact List.getElem_mem hi
    exact trustUpdate_getElem?_mem prev uids r alpha i hnd hlen hi (hbound _ hmemi)
  · exact trustUpdate_getElem?_not_mem prev uids r alpha j hj hmem
  · exact trustUpdateRounds_getElem?_not_mem prev rounds alpha j hj hmem

/-- Witness for `trustUpdate_pointwise` at prev `[1, 1, 1]`, uids `[0, 2]`,
rewards `[1/2, 1/4]`, alpha `1/2`. -/
theorem trustUpdate_pointwise_witness :
    (trustUpdate [1, 1, 1] [0, 2] [1/2, 1/4] (1/2))[([0, 2].getD 0 0 : Nat)]? =
      some ((1:ℚ)/2 * ([(1:ℚ)/2, 1/4].getD 0 0) +
        (1 - 1/2) * ([(1:ℚ), 1, 1].getD ([0, 2].getD 0 0) 0)) ∧
    (trustUpdate [1, 1, 1] [0, 2] [1/2, 1/4] (1/2))[1]? = ([(1:ℚ), 1, 1])[1]? := by
  have h := trustUpdate_pointwise [1, 1, 1] [0, 2] [1/2, 1/4] (1/2)
    (by decide) rfl (by decide)
  exact ⟨h.1 0 (by decide), h.2.1 1 (by decide) (by decide)⟩

/-! ## Claim C2: a zero mask forces a zero reward -/

/-- C2: for any response batch of size `n`, any weighted scoring outputs
with values in `[0, 1]`, any penalty outputs, and any index `i < n`, if some
masking function's output is `0` at `i` then `compute_rewards` is `0` at
`i`, whatever the weighted scores there. -/
theorem masking_zero_forces_zero_reward (weights : List ℚ)
    (scores masks penalties : List (List ℚ)) (n i : Nat) (hi : i < n)
    (hws : ∀ p ∈ weights.zip scores, p.2.length = n)
    (hrange : ∀ s ∈ scores, ∀ x ∈ s, 0 ≤ x ∧ x ≤ 1)
    (hm : ∀ m ∈ masks, m.length = n)
    (hp : ∀ m ∈ penalties, m.length = n)
    (hmask : ∃ m ∈ masks, m.getD i 0 = 0) :
    (compute_rewards weights scores masks penalties n)[i]? = some 0 := by
  rw [compute_rewards_getElem? weights scores masks penalties n i hi hws hm hp]
  obtain ⟨m, hmem, hzero⟩ := hmask
  have : (masks.map (fun m => m.getD i 0)).prod = 0 :=
    List.prod_eq_zero (List.mem_map.mpr ⟨m, hmem, hzero⟩)
  rw [this, mul_zero, zero_mul]

/-- Witness for `masking_zero_forces_zero_reward`: one weighted scorer of
weight 1 returning `[1/2, 1/2, 1/2]`, one mask `[1, 0, 1]`, no penalties,
index 1. -/
theorem masking_zero_forces_zero_reward_witness :
    (compute_rewards [1] [[1/2, 1/2, 1/2]] [[1, 0, 1]] [] 3)[1]? = some 0 :=
  masking_zero_forces_zero_reward [1] [[1/2, 1/2, 1/2]] [[1, 0, 1]] [] 3 1
    (by omega) (by decide)
    (by intro s hs x hx; fin_cases hs; fin_cases hx <;> norm_num)
    (by decide) (by decide)
    ⟨[1, 0, 1], List.mem_singleton_self _, rfl⟩

/-! ## Claim C8: end-to-end scenario A -/

/-- C8: with a registry of 5 peers, previous trust all 0, a single weighted
scoring function of weight 1 returning `[0.2, 0.4, 0.6]` for the 3 sampled
peers, no masking or penalty functions, and `alpha = 1/2`, the round's
reward vector is `[0.2, 0.4, 0.6]` and the updated trust is
`[0.1, 0.2, 0.3]` at the three sampled positions and `0` everywhere else. -/
theorem scenario_a_round_step (uids : List Nat) (hlen : uids.length = 3)
    (hnd : uids.Nodup) (hb : ∀ u ∈ uids, u < 5) :
    compute_rewards [1] [[1/5, 2/5, 3/5]] [] [] 3 = [1/5, 2/5, 3/5] ∧
    (∀ i, i < 3 →
      (trustUpdate (List.replicate 5 0) uids [1/5, 2/5, 3/5] (1/2))[uids.getD i 0]? =
        some ([(1:ℚ)/10, 1/5, 3/10].getD i 0)) ∧
    (∀ j, j < 5 → j ∉ uids →
      (trustUpdate (List.replicate 5 0) uids [1/5, 2/5, 3/5] (1/2))[j]? = some 0) := by
  refine ⟨by norm_num [compute_rewards, applyFactors, weightedSum, List.replicate],
    fun i hi => ?_, fun j hj hmem => ?_⟩
  · have hmemi : uids.getD i 0 ∈ uids := by
      rw [List.getD_eq_getElem uids 0 (by omega)]
      exact List.getElem_mem (by omega)
    have := trustUpdate_getElem?_mem (List.replicate 5 0) uids [1/5, 2/5, 3/5] (1/2) i
      hnd (by rw [hlen]; rfl) (by omega)
      (by rw [List.length_replicate]; exact hb _ hmemi)
    rw [this]
    have hprev : (List.replicate 5 (0:ℚ)).getD (uids.getD i 0) 0 = 0 := by
      rw [List.getD_eq_getElem _ 0 (by rw [List.length_replicate]; exact hb _ hmemi),
        List.getElem_replicate]
    rw [hprev]
    interval_cases i <;> norm_num [List.getD]
  · have := trustUpdate_getElem?_not_mem (List.replicate 5 0) uids [1/5, 2/5, 3/5] (1/2) j
      (by rw [List.length_replicate]; exact hj) hmem
    rw [this, List.getElem?_eq_getElem (by rw [List.length_replicate]; exact hj),
      List.getElem_replicate]

/-- Witness for `scenario_a_round_step` at uids `[4, 1, 2]`. -/
theorem scenario_a_round_step_witness :
    compute_rewards [1] [[1/5, 2/5, 3/5]] [] [] 3 = [1/5, 2/5, 3/5] ∧
    (trustUpdate (List.replicate 5 0) [4, 1, 2] [1/5, 2/5, 3/5] (1/2))[([4, 1, 2].getD 0 0 : Nat)]? =
      some ([(1:ℚ)/10, 1/5, 3/10].getD 0 0) ∧
    (trustUpdate (List.replicate 5 0) [4, 1, 2] [1/5, 2/5, 3/5] (1/2))[0]? = some 0 := by
  have h := scenario_a_round_step [4, 1, 2] rfl (by decide) (by decide)
  exact ⟨h.1, h.2.1 0 (by omega), h.2.2 0 (by omega) (by decide)⟩

/-! ## Claim C10: an empty sampled batch makes the round step raise -/

/-- C10: when the sampled uid set is empty (hence the response batch is
empty), `compute_rewards` tolerates the empty batch and returns the empty
reward vector, but `run_step` does not return normally: selecting the best
completion applies argmax to an empty tensor and raises. -/
theorem empty_batch_run_step_errors (prevTrust : List ℚ) (alpha : ℚ) (taskName : List Char)
    (weights : List ℚ) (scores masks penalties : List (List ℚ)) :
    compute_rewards weights scores masks penalties 0 = [] ∧
    run_step prevTrust alpha [] [] taskName weights scores masks penalties =
      Except.error "argmax of an empty tensor" := by
  have hcr : compute_rewards weights scores masks penalties 0 = [] := by
    rw [compute_rewards, weightedSum_zero_len, applyFactors_nil_acc, applyFactors_nil_acc]
  refine ⟨hcr, ?_⟩
  have hmap : restrict_format_followup_responses taskName [] = [] := rfl
  simp only [run_step, hmap, List.length_nil, hcr, select_best, pyArgmax]

/-! ## Claim C4: the peer sampler -/

theorem candidateUids_nodup (n : Nat) (avail : Nat → Bool) (exclude : Option (List Nat)) :
    (candidateUids n avail exclude).Nodup :=
  (List.nodup_range n).filter _

theorem mem_candidateUids (n : Nat) (avail : Nat → Bool) (exclude : Option (List Nat))
    (u : Nat) (hu : u ∈ candidateUids n avail exclude) :
    u < n ∧ avail u = true ∧ ∀ ex, exclude = some ex → u ∉ ex := by
  rw [candidateUids, List.mem_filter, List.mem_range] at hu
  obtain ⟨hlt, hcond⟩ := hu
  rw [Bool.and_eq_true] at hcond
  refine ⟨hlt, hcond.1, fun ex hex => ?_⟩
  have := hcond.2
  rw [hex] at this
  exact of_decide_eq_true this

/-- C4: under the documented contract of `random.sample` (a list of `j`
distinct elements of the population whenever `j ≤` the population size),
`get_random_uids` returns at most `k` uids without repetition, each below
the registry size, passing the eligibility check, and not excluded; and
when fewer than `k` candidates are eligible it returns exactly the set of
all eligible uids. -/
theorem get_random_uids_spec (sample : List Nat → Nat → List Nat) (n : Nat)
    (avail : Nat → Bool) (k : Nat) (exclude : Option (List Nat))
    (hs_len : ∀ l j, j ≤ l.length → (sample l j).length = j)
    (hs_mem : ∀ l j, ∀ x ∈ sample l j, x ∈ l)
    (hs_nodup : ∀ l j, l.Nodup → (sample l j).Nodup) :
    (get_random_uids sample n avail k exclude).length ≤ k ∧
    (get_random_uids sample n avail k exclude).Nodup ∧
    (∀ u ∈ get_random_uids sample n avail k exclude,
      u < n ∧ avail u = true ∧ ∀ ex, exclude = some ex → u ∉ ex) ∧
    ((candidateUids n avail exclude).length < k →
      ∀ u, u ∈ get_random_uids sample n avail k exclude ↔
        u ∈ candidateUids n avail exclude) := by
  have hcnd : (candidateUids n avail exclude).Nodup := candidateUids_nodup n avail exclude
  by_cases hc : candidateUids n avail exclude = []
  · rw [get_random_uids]
    simp only [hc, if_pos rfl]
    refine ⟨by simp, List.nodup_nil, by simp, fun _ u => by simp⟩
  · have hres : get_random_uids sample n avail k exclude =
        sample (candidateUids n avail exclude)
          (if (candidateUids n avail exclude).length < k then
            (candidateUids n avail exclude).length else k) := by
      rw [get_random_uids]
      simp only [if_neg hc]
    set c := candidateUids n avail exclude with hcdef
    set k' := if c.length < k then c.length else k with hk'
    have hk'le : k' ≤ k := by
      rw [hk']
      split <;> omega
    have hk'c : k' ≤ c.length := by
      rw [hk']
      split
      · omega
      · omega
    refine ⟨?_, ?_, ?_, ?_⟩
    · rw [hres, hs_len c k' hk'c]
      exact hk'le
    · rw [hres]
      exact hs_nodup c k' hcnd
    · intro u hu
      rw [hres] at hu
      exact mem_candidateUids n avail exclude u (hs_mem c k' u hu)
    · intro hlt u
      have hk'eq : k' = c.length := by
        rw [hk', if_pos hlt]
      have hlen : (sample c k').length = c.length := by
        rw [hs_len c k' hk'c, hk'eq]
      have hnd : (sample c k').Nodup := hs_nodup c k' hcnd
      have hsub : (sample c k').toFinset ⊆ c.toFinset := fun x hx =>
        List.mem_toFinset.mpr (hs_mem c k' x (List.mem_toFinset.mp hx))
      have hcard : c.toFinset.card ≤ (sample c k').toFinset.card := by
        rw [List.toFinset_card_of_nodup hnd, List.toFinset_card_of_nodup hcnd, hlen]
      have heq : (sample c k').toFinset = c.toFinset :=
        Finset.eq_of_subset_of_card_le hsub hcard
      rw [hres]
      constructor
      · intro hu
        exact List.mem_toFinset.mp (heq ▸ List.mem_toFinset.mpr hu)
      · intro hu
        exact List.mem_toFinset.mp (heq.symm ▸ List.mem_toFinset.mpr hu)

/-- Witness for `get_random_uids_spec`: registry size 4, uid 2 unavailable,
uid 0 excluded, `k = 10`, and `random.sample` instantiated by `take`. -/
theorem get_random_uids_spec_witness :
    (get_random_uids (fun l j => l.take j) 4 (fun u => decide (u ≠ 2)) 10 (some [0])).length ≤ 10 ∧
    (get_random_uids (fun l j => l.take j) 4 (fun u => decide (u ≠ 2)) 10 (some [0])).Nodup := by
  have h := get_random_uids_spec (fun l j => l.take j) 4 (fun u => decide (u ≠ 2)) 10 (some [0])
    (fun l j hj => by rw [List.length_take]; omega)
    (fun l j x hx => List.mem_of_mem_take hx)
    (fun l j hnd => hnd.sublist (List.take_sublist j l))
  exact ⟨h.1, h.2.1⟩

/-! ## Claim C3: the weight-sum check at construction -/

/-- C3 (counterexample): with mock reward models enabled, the weighted list
is empty — its weights sum to 0, not 1 — and yet construction succeeds, so
"for every configuration, construction fails whenever the weights do not
sum to 1" is false on the code. -/
theorem init_reward_models_mock_skips_weight_check :
    init_reward_models cfgMock = Except.ok mockPipeline ∧
    mockPipeline.reward_weights.sum = 0 ∧ (0 : ℚ) ≠ 1 := by
  refine ⟨rfl, rfl, by norm_num⟩

/-- C3 (amended): for every configuration with mock reward models
*disabled*, construction fails exactly when the weighted-scoring weights
(the single-element list `[mistral_weight]`) do not sum to 1, and completes
exactly when they do; with mock reward models enabled the check is skipped
entirely. -/
theorem init_reward_models_weight_check (cfg : NeuronConfig)
    (h : cfg.mock_reward_models = false) :
    ((init_reward_models cfg).isOk = true ↔ ([cfg.mistral_weight] : List ℚ).sum = 1) := by
  by_cases hw : ([cfg.mistral_weight] : List ℚ).sum = 1
  · simp only [init_reward_models, h, Bool.false_eq_true, if_false, hw, ne_eq,
      not_true_eq_false, if_neg, List.length_cons, List.length_nil]
    simp [Except.isOk, Except.toBool, hw]
  · simp only [init_reward_models, h, Bool.false_eq_true, if_false]
    rw [if_pos hw]
    simp only [Except.isOk, Except.toBool, Bool.false_eq_true, false_iff]
    simpa using hw

/-- Witness for `init_reward_models_weight_check` at the default real
configuration (mistral weight 1): construction succeeds. -/
theorem init_reward_models_weight_check_witness :
    (init_reward_models cfgReal).isOk = true := by
  have h := init_reward_models_weight_check cfgReal rfl
  exact h.mpr (by simp [cfgReal])

/-! ## Claim C6: the epoch boundary -/

theorem epoch_iteration_pos (prev cur eLen : Int) (we cs : Bool) (h : cur - prev > eLen) :
    epoch_iteration prev cur eLen we cs =
      { prevBlock := cur, boundaryEntered := true, commitAttempted := we } := by
  rw [epoch_iteration, if_pos (show should_update cur prev eLen = true from decide_eq_true h)]

theorem epoch_iteration_neg (prev cur eLen : Int) (we cs : Bool) (h : ¬(cur - prev > eLen)) :
    epoch_iteration prev cur eLen we cs =
      { prevBlock := prev, boundaryEntered := false, commitAttempted := false } := by
  rw [epoch_iteration, if_neg]
  rw [show should_update cur prev eLen = false from decide_eq_false h]
  simp

/-- C6: the boundary is entered exactly when the current block exceeds the
last-recorded block by more than the epoch length (default 100); inside the
boundary the last-recorded block becomes the current block — regardless of
the weight-setting eligibility and of the commit outcome — and a re-check
at the same block no longer triggers, so the boundary fires once per
qualifying round; outside the boundary the last-recorded block is kept. -/
theorem epoch_boundary_behaviour (prev cur eLen : Int) (we cs we' cs' : Bool)
    (heLen : 0 ≤ eLen) :
    ((epoch_iteration prev cur eLen we cs).boundaryEntered = true ↔ cur - prev > eLen) ∧
    ((epoch_iteration prev cur eLen we cs).boundaryEntered = true →
      (epoch_iteration prev cur eLen we cs).prevBlock = cur ∧
      should_update cur (epoch_iteration prev cur eLen we cs).prevBlock eLen = false) ∧
    ((epoch_iteration prev cur eLen we cs).boundaryEntered = false →
      (epoch_iteration prev cur eLen we cs).prevBlock = prev) ∧
    (epoch_iteration prev cur eLen we cs).prevBlock =
      (epoch_iteration prev cur eLen we' cs').prevBlock ∧
    epoch_length_default none = 100 := by
  by_cases h : cur - prev > eLen
  · rw [epoch_iteration_pos prev cur eLen we cs h, epoch_iteration_pos prev cur eLen we' cs' h]
    refine ⟨⟨fun _ => h, fun _ => rfl⟩, fun _ => ⟨rfl, ?_⟩, fun hf => by simp at hf, rfl, rfl⟩
    show should_update cur cur eLen = false
    exact decide_eq_false (by omega)
  · rw [epoch_iteration_neg prev cur eLen we cs h, epoch_iteration_neg prev cur eLen we' cs' h]
    exact ⟨⟨fun hf => by simp at hf, fun hgt => absurd hgt h⟩, fun hf => by simp at hf,
      fun _ => rfl, rfl, rfl⟩

/-- Witness for `epoch_boundary_behaviour` at prev 0, cur 150, epoch
length 100. -/
theorem epoch_boundary_behaviour_witness :
    (epoch_iteration 0 150 100 false false).boundaryEntered = true ∧
    (epoch_iteration 0 150 100 false false).prevBlock = 150 ∧
    should_update 150 (epoch_iteration 0 150 100 false false).prevBlock 100 = false := by
  have h := epoch_boundary_behaviour 0 150 100 false false true true (by norm_num)
  have hb : (epoch_iteration 0 150 100 false false).boundaryEntered = true :=
    h.1.mpr (by norm_num)
  exact ⟨hb, (h.2.1 hb).1, (h.2.1 hb).2⟩

/-! ## Claim C7: a missing registration stops the loop -/

/-- C7: if at the start of some loop iteration the validator's own hotkey
is absent from that iteration's registry snapshot — every earlier iteration
having it — the run loop raises the registration error, the top-level
handler catches and surfaces it, and the loop terminates having executed
exactly the earlier iterations: no retry. -/
theorem registration_absent_stops_loop (own : String) (eLen : Int)
    (envs : List RoundEnv) (st : LoopState) (i : Nat) (e : RoundEnv)
    (hi : envs[i]? = some e)
    (hbefore : ∀ j, j < i → ∀ ej, envs[j]? = some ej → own ∈ ej.hotkeys)
    (habsent : own ∉ e.hotkeys) :
    (run_loop own eLen envs st).fatalError = some (registration_error own) ∧
    (run_loop own eLen envs st).roundsExecuted = i := by
  induction envs generalizing st i with
  | nil => simp at hi
  | cons env rest ih =>
    match i with
    | 0 =>
      simp only [List.getElem?_cons_zero, Option.some_inj] at hi
      subst hi
      simp [run_loop, if_neg habsent]
    | i + 1 =>
      have hmem : own ∈ env.hotkeys := hbefore 0 (by omega) env (by simp)
      simp only [List.getElem?_cons_succ] at hi
      simp only [run_loop, if_pos hmem]
      have hr := ih
        { prevBlock := (epoch_iteration st.prevBlock env.curBlock eLen
            env.weightsEligible true).prevBlock
          step := st.step + 1 }
        i hi
        (fun j hj ej hej => hbefore (j + 1) (by omega) ej (by simpa using hej))
      exact ⟨hr.1, by rw [hr.2]⟩

/-- Witness for `registration_absent_stops_loop`: the hotkey is present in
round 0's snapshot and absent from round 1's; the loop runs exactly one
round and stops with the registration error. -/
theorem registration_absent_stops_loop_witness :
    (run_loop "v" 100 [⟨["v"], 0, false⟩, ⟨[], 5, true⟩] ⟨0, 0⟩).fatalError =
      some (registration_error "v") ∧
    (run_loop "v" 100 [⟨["v"], 0, false⟩, ⟨[], 5, true⟩] ⟨0, 0⟩).roundsExecuted = 1 := by
  have h := registration_absent_stops_loop "v" 100
    [⟨["v"], 0, false⟩, ⟨[], 5, true⟩] ⟨0, 0⟩ 1 ⟨[], 5, true⟩ rfl
    (by
      intro j hj ej hej
      interval_cases j
      simp only [List.getElem?_cons_zero, Option.some_inj] at hej
      subst hej
      simp)
    (by simp)
  exact h

/-! ## Helper lemmas: Python string operations -/

theorem pySplit_ne_nil (c : Char) (l : List Char) : pySplit c l ≠ [] := by
  cases l with
  | nil => simp [pySplit]
  | cons x xs =>
    cases h : pySplit c xs with
    | nil => simp [pySplit, h]
    | cons p ps =>
      simp only [pySplit, h]
      split <;> simp

theorem pySplit_nil_str (c : Char) : pySplit c [] = [[]] := rfl

theorem pyHead_mem (l : List (List Char)) (hl : l ≠ []) : pyHead l ∈ l := by
  cases l with
  | nil => simp at hl
  | cons a as => simp [pyHead]

theorem getLastD_mem (l : List (List Char)) (d : List Char) (hl : l ≠ []) :
    l.getLastD d ∈ l := by
  induction l generalizing d with
  | nil => simp at hl
  | cons a as ih =>
    rw [List.getLastD_cons]
    cases as with
    | nil => simp [List.getLastD]
    | cons b bs => exact List.mem_cons_of_mem a (ih a (by simp))

theorem pyLast_mem (l : List (List Char)) (hl : l ≠ []) : pyLast l ∈ l :=
  getLastD_mem l [] hl

theorem pySplit_cons_sep (c : Char) (xs : List Char) :
    pySplit c (c :: xs) = [] :: pySplit c xs := by
  cases h : pySplit c xs with
  | nil => exact absurd h (pySplit_ne_nil c xs)
  | cons p ps => simp [pySplit, h]

theorem pySplit_cons_ne (c x : Char) (xs : List Char) (hx : x ≠ c) :
    pySplit c (x :: xs) = (x :: pyHead (pySplit c xs)) :: (pySplit c xs).tail := by
  cases h : pySplit c xs with
  | nil => exact absurd h (pySplit_ne_nil c xs)
  | cons p ps => simp [pySplit, h, hx, pyHead]

theorem pySplit_not_mem (c : Char) (l : List Char) (hc : c ∉ l) : pySplit c l = [l] := by
  induction l with
  | nil => rfl
  | cons x xs ih =>
    have hx : x ≠ c := fun he => hc (he ▸ List.mem_cons_self x xs)
    have hxs : c ∉ xs := fun hm => hc (List.mem_cons_of_mem x hm)
    rw [pySplit_cons_ne c x xs hx, ih hxs]
    simp [pyHead]

theorem mem_pySplit_not_mem (c : Char) (l : List Char) :
    ∀ p ∈ pySplit c l, c ∉ p := by
  induction l with
  | nil =>
    intro p hp
    simp [pySplit] at hp
    subst hp
    simp
  | cons y xs ih =>
    intro p hp
    by_cases hy : y = c
    · subst hy
      rw [pySplit_cons_sep] at hp
      rcases List.mem_cons.mp hp with h | h
      · subst h; simp
      · exact ih p h
    · rw [pySplit_cons_ne c y xs hy] at hp
      rcases List.mem_cons.mp hp with h | h
      · subst h
        intro hmem
        rcases List.mem_cons.mp hmem with h2 | h2
        · exact hy h2.symm
        · exact ih (pyHead (pySplit c xs)) (pyHead_mem _ (pySplit_ne_nil c xs)) h2
      · exact ih p (List.mem_of_mem_tail h)

theorem mem_of_mem_pySplit (c : Char) (l : List Char) :
    ∀ p ∈ pySplit c l, ∀ x ∈ p, x ∈ l := by
  induction l with
  | nil =>
    intro p hp x hx
    simp [pySplit] at hp
    subst hp
    simp at hx
  | cons y xs ih =>
    intro p hp x hx
    by_cases hy : y = c
    · subst hy
      rw [pySplit_cons_sep] at hp
      rcases List.mem_cons.mp hp with h | h
      · subst h; simp at hx
      · exact List.mem_cons_of_mem _ (ih p h x hx)
    · rw [pySplit_cons_ne c y xs hy] at hp
      rcases List.mem_cons.mp hp with h | h
      · subst h
        rcases List.mem_cons.mp hx with h2 | h2
        · subst h2; exact List.mem_cons_self x xs
        · exact List.mem_cons_of_mem _
            (ih (pyHead (pySplit c xs)) (pyHead_mem _ (pySplit_ne_nil c xs)) x h2)
      · exact List.mem_cons_of_mem _ (ih p (List.mem_of_mem_tail h) x hx)

theorem pySplit_append_cons (c : Char) (w rest : List Char) (hc : c ∉ w) :
    pySplit c (w ++ c :: rest) = w :: pySplit c rest := by
  induction w with
  | nil => exact pySplit_cons_sep c rest
  | cons x w ih =>
    have hx : x ≠ c := fun he => hc (he ▸ List.mem_cons_self x w)
    have hw : c ∉ w := fun hm => hc (List.mem_cons_of_mem x hm)
    rw [List.cons_append, pySplit_cons_ne c x _ hx, ih hw]
    simp [pyHead]

theorem pySplit_pyJoin (c : Char) (ws : List (List Char)) (hne : ws ≠ [])
    (h : ∀ w ∈ ws, c ∉ w) : pySplit c (pyJoin c ws) = ws := by
  induction ws with
  | nil => simp at hne
  | cons w ws ih =>
    cases ws with
    | nil => exact pySplit_not_mem c w (h w (List.mem_cons_self w []))
    | cons v vs =>
      rw [show pyJoin c (w :: v :: vs) = w ++ c :: pyJoin c (v :: vs) from rfl,
        pySplit_append_cons c w _ (h w (List.mem_cons_self _ _)),
        ih (by simp) (fun u hu => h u (List.mem_cons_of_mem w hu))]

theorem mem_pyJoin (c : Char) (ws : List (List Char)) (x : Char) (hx : x ∈ pyJoin c ws) :
    x = c ∨ ∃ w ∈ ws, x ∈ w := by
  induction ws with
  | nil => simp [pyJoin] at hx
  | cons w ws ih =>
    cases ws with
    | nil => exact Or.inr ⟨w, List.mem_cons_self w [], hx⟩
    | cons v vs =>
      rw [show pyJoin c (w :: v :: vs) = w ++ c :: pyJoin c (v :: vs) from rfl] at hx
      rcases List.mem_append.mp hx with h | h
      · exact Or.inr ⟨w, List.mem_cons_self _ _, h⟩
      · rcases List.mem_cons.mp h with h2 | h2
        · exact Or.inl h2
        · rcases ih h2 with h3 | ⟨u, hu, hxu⟩
          · exact Or.inl h3
          · exact Or.inr ⟨u, List.mem_cons_of_mem w hu, hxu⟩

theorem pyLStrip_not_mem (c : Char) (l : List Char) (hc : c ∉ l) : pyLStrip c l = l := by
  cases l with
  | nil => rfl
  | cons x xs =>
    have hx : x ≠ c := fun he => hc (he ▸ List.mem_cons_self x xs)
    simp [pyLStrip, hx]

theorem pyStrip_not_mem (c : Char) (l : List Char) (hc : c ∉ l) : pyStrip c l = l := by
  rw [pyStrip, pyLStrip_not_mem c l.reverse (by simpa using hc), List.reverse_reverse,
    pyLStrip_not_mem c l hc]

theorem lastN_length_le (k : Nat) (l : List (List Char)) : (lastN k l).length ≤ k := by
  rw [lastN, List.length_drop]
  omega

theorem lastN_of_length_le (k : Nat) (l : List (List Char)) (h : l.length ≤ k) :
    lastN k l = l := by
  rw [lastN, Nat.sub_eq_zero_of_le h, List.drop_zero]

theorem lastN_idem (k : Nat) (l : List (List Char)) : lastN k (lastN k l) = lastN k l :=
  lastN_of_length_le k (lastN k l) (lastN_length_le k l)

theorem mem_lastN (k : Nat) (l : List (List Char)) (p : List Char) (h : p ∈ lastN k l) :
    p ∈ l := by
  rw [lastN] at h
  exact List.mem_of_mem_drop h

theorem lastN_ne_nil (k : Nat) (l : List (List Char)) (hk : 0 < k) (hl : l ≠ []) :
    lastN k l ≠ [] := by
  have hlp : 0 < l.length := List.length_pos.mpr hl
  have : 0 < (lastN k l).length := by
    rw [lastN, List.length_drop]
    omega
  exact List.ne_nil_of_length_pos this

/-! ## Claim C5: the normalizer is idempotent -/

theorem restrictCompletion_idem (t comp : List Char) :
    restrictCompletion t (restrictCompletion t comp) = restrictCompletion t comp := by
  by_cases hf : followupMarker <:+: t
  · by_cases hz : (pyStrip '.' comp).length > 0
    · by_cases hq : '?' ∈ pyStrip '.' comp
      · -- follow-up branch with a question mark: the result is w ++ "?"
        -- with no periods and no further question marks in w.
        have h1 : restrictCompletion t comp =
            pyJoin ' ' (lastN 40 (pySplit ' '
              (pyLast (pySplit '.' (pyHead (pySplit '?' (pyStrip '.' comp))))))) ++ ['?'] := by
          rw [restrictCompletion, if_pos ⟨hf, hz⟩, if_pos hq]
        set c1 := pyLast (pySplit '.' (pyHead (pySplit '?' (pyStrip '.' comp)))) with hc1
        set w := pyJoin ' ' (lastN 40 (pySplit ' ' c1)) with hw
        have hc1_dot : '.' ∉ c1 :=
          mem_pySplit_not_mem '.' _ _ (pyLast_mem _ (pySplit_ne_nil _ _))
        have hhead_q : '?' ∉ pyHead (pySplit '?' (pyStrip '.' comp)) :=
          mem_pySplit_not_mem '?' _ _ (pyHead_mem _ (pySplit_ne_nil _ _))
        have hc1_q : '?' ∉ c1 := fun hmem =>
          hhead_q (mem_of_mem_pySplit '.' _ c1
            (pyLast_mem _ (pySplit_ne_nil _ _)) '?' hmem)
        have hx_w : ∀ x ∈ w, x = ' ' ∨ x ∈ c1 := by
          intro x hx
          rcases mem_pyJoin ' ' _ x hx with h | ⟨v, hv, hxv⟩
          · exact Or.inl h
          · exact Or.inr (mem_of_mem_pySplit ' ' c1 v (mem_lastN 40 _ v hv) x hxv)
        have hw_dot : '.' ∉ w := fun hm => by
          rcases hx_w '.' hm with h | h
          · exact absurd h (by decide)
          · exact hc1_dot h
        have hw_q : '?' ∉ w := fun hm => by
          rcases hx_w '?' hm with h | h
          · exact absurd h (by decide)
          · exact hc1_q h
        have hstrip : pyStrip '.' (w ++ ['?']) = w ++ ['?'] := by
          refine pyStrip_not_mem '.' _ fun hm => ?_
          rcases List.mem_append.mp hm with h | h
          · exact hw_dot h
          · simp at h
        rw [h1]
        simp only [restrictCompletion, hstrip]
        rw [if_pos ⟨hf, by simp⟩, if_pos (show '?' ∈ w ++ ['?'] by simp)]
        have h5 : pySplit '?' (w ++ ['?']) = [w, []] :=
          pySplit_append_cons '?' w [] hw_q
        rw [h5, show pyHead [w, []] = w from rfl, pySplit_not_mem '.' w hw_dot,
          show pyLast [w] = w from rfl]
        have hlast_ne : lastN 40 (pySplit ' ' c1) ≠ [] :=
          lastN_ne_nil 40 _ (by omega) (pySplit_ne_nil ' ' c1)
        have hlast_nospace : ∀ v ∈ lastN 40 (pySplit ' ' c1), ' ' ∉ v := fun v hv =>
          mem_pySplit_not_mem ' ' c1 v (mem_lastN 40 _ v hv)
        rw [hw, pySplit_pyJoin ' ' _ hlast_ne hlast_nospace, lastN_idem]
      · -- follow-up branch without a question mark: the result has no
        -- periods and no question marks.
        have h1 : restrictCompletion t comp =
            pyJoin ' ' (lastN 40 (pySplit ' '
              (pyLast (pySplit '.' (pyLast (pySplit '.' (pyStrip '.' comp))))))) := by
          rw [restrictCompletion, if_pos ⟨hf, hz⟩, if_neg hq]
        set c2 := pyLast (pySplit '.' (pyLast (pySplit '.' (pyStrip '.' comp)))) with hc2
        set r := pyJoin ' ' (lastN 40 (pySplit ' ' c2)) with hr
        have hc2_dot : '.' ∉ c2 :=
          mem_pySplit_not_mem '.' _ _ (pyLast_mem _ (pySplit_ne_nil _ _))
        have hc2_q : '?' ∉ c2 := fun hmem =>
          hq (mem_of_mem_pySplit '.' _ _
            (pyLast_mem _ (pySplit_ne_nil _ _)) '?'
            (mem_of_mem_pySplit '.' _ c2
              (pyLast_mem _ (pySplit_ne_nil _ _)) '?' hmem))
        have hx_r : ∀ x ∈ r, x = ' ' ∨ x ∈ c2 := by
          intro x hx
          rcases mem_pyJoin ' ' _ x hx with h | ⟨v, hv, hxv⟩
          · exact Or.inl h
          · exact Or.inr (mem_of_mem_pySplit ' ' c2 v (mem_lastN 40 _ v hv) x hxv)
        have hr_dot : '.' ∉ r := fun hm => by
          rcases hx_r '.' hm with h | h
          · exact absurd h (by decide)
          · exact hc2_dot h
        have hr_q : '?' ∉ r := fun hm => by
          rcases hx_r '?' hm with h | h
          · exact absurd h (by decide)
          · exact hc2_q h
        have hstrip : pyStrip '.' r = r := pyStrip_not_mem '.' r hr_dot
        rw [h1]
        by_cases hrz : r.length > 0
        · simp only [restrictCompletion, hstrip]
          rw [if_pos ⟨hf, hrz⟩, if_neg hr_q, pySplit_not_mem '.' r hr_dot,
            show pyLast [r] = r from rfl, pySplit_not_mem '.' r hr_dot,
            show pyLast [r] = r from rfl]
          have hlast_ne : lastN 40 (pySplit ' ' c2) ≠ [] :=
            lastN_ne_nil 40 _ (by omega) (pySplit_ne_nil ' ' c2)
          have hlast_nospace : ∀ v ∈ lastN 40 (pySplit ' ' c2), ' ' ∉ v := fun v hv =>
            mem_pySplit_not_mem ' ' c2 v (mem_lastN 40 _ v hv)
          rw [hr, pySplit_pyJoin ' ' _ hlast_ne hlast_nospace, lastN_idem]
        · simp only [restrictCompletion, hstrip]
          rw [if_neg (fun hand => hrz hand.2)]
    · have h1 : restrictCompletion t comp = comp := by
        rw [restrictCompletion, if_neg (fun hand => hz hand.2)]
      rw [h1, h1]
  · have h1 : restrictCompletion t comp = comp := by
      rw [restrictCompletion, if_neg (fun hand => hf hand.1)]
    rw [h1, h1]

/-- C5: applying the response normalizer twice yields the same completions
as applying it once, for follow-up task names and all other task names
alike. -/
theorem restrict_format_idempotent (taskName : List Char)
    (completions : List (List Char)) :
    restrict_format_followup_responses taskName
        (restrict_format_followup_responses taskName completions) =
      restrict_format_followup_responses taskName completions := by
  rw [restrict_format_followup_responses, restrict_format_followup_responses,
    List.map_map]
  exact List.map_congr_left fun a _ => restrictCompletion_idem taskName a

/-! ## Claim C9: end-to-end scenario D -/

/-- C9 (counterexample): the normalizer never lowercases, so the follow-up
completion `"What do you like?."` does **not** normalize to the
string `"what do you like?"`. -/
theorem scenario_d_not_lowercased :
    restrictCompletion "followup".toList "What do you like?.".toList ≠
      "what do you like?".toList := by
  decide

/-- C9 (amended): for a follow-up task, normalizing the completion
`"What do you like?."` produces `"What do you like?"` (casing preserved),
which is at most 40 words long and ends in `"?"`. -/
theorem scenario_d_preserves_case :
    restrictCompletion "followup".toList "What do you like?.".toList =
      "What do you like?".toList ∧
    (pySplit ' ' (restrictCompletion "followup".toList
      "What do you like?.".toList)).length ≤ 40 ∧
    (restrictCompletion "followup".toList "What do you like?.".toList).getLast? =
      some '?' := by
  decide

end Roleplay
